import Mathlib

/-!
Verification of the llmop-youtube playhead/video-state tracking and
event-timeline engine, as a shallow embedding in Lean.

Numbers that the source handles as JavaScript numbers (timestamps in
seconds, durations) are modelled as `Int`; strings stay `String`.  A
JavaScript `Map` is modelled as an association list in insertion order
(`jsMapSet` mirrors `Map.set`, which updates in place when the key is
present and appends otherwise).  Fallible operations return `Option` /
`Except`; asynchronous interleavings are modelled as explicit traces of
events folded over a state.
-/

namespace LLMOP

/-- A video event as produced by the analysis provider and enriched by
duration computation.  `duration` is `none` while it has not been set
(JavaScript `undefined`). -/
structure VideoEvent where
  name : String
  description : String
  timestamp : Int
  duration : Option Int
deriving DecidableEq, Repr

/-- The identifying fields of an event: everything except the mutable
derived `duration`. -/
def VideoEvent.core (e : VideoEvent) : String × String × Int :=
  (e.name, e.description, e.timestamp)

/-- Comparator relation used by every `events.sort((a, b) => a.timestamp - b.timestamp)`
call in the source. -/
def tsLE (a b : VideoEvent) : Prop := a.timestamp ≤ b.timestamp

instance : DecidableRel tsLE := fun a b =>
  inferInstanceAs (Decidable (a.timestamp ≤ b.timestamp))

instance : IsTotal VideoEvent tsLE := ⟨fun a b => Int.le_total a.timestamp b.timestamp⟩

instance : IsTrans VideoEvent tsLE := ⟨fun _ _ _ h h' => le_trans h h'⟩

/-- JavaScript `Array.prototype.sort` with the timestamp comparator: a
stable sort, modelled by Mathlib's stable insertion sort. -/
def sortByTimestamp (events : List VideoEvent) : List VideoEvent :=
  events.insertionSort tsLE

/-! ## Caption cache (`addToCache` / `getFromCache`, youtube-watcher.ts) -/

/-- `Map.set(k, v)`: overwrite in place when the key is present, append
otherwise (insertion order preserved). -/
def jsMapSet (cache : List (String × String)) (k v : String) :
    List (String × String) :=
  if cache.any (fun p => p.1 = k) then
    cache.map (fun p => if p.1 = k then (k, v) else p)
  else
    cache ++ [(k, v)]

/-- `addToCache(videoId, captions)`: when `size >= MAX_CACHE_SIZE`, delete
the entry of `keys().next().value` — with the map's unique keys this is
the first (oldest-inserted) entry — then `set` the new pair. -/
def addToCache (maxSize : Nat) (cache : List (String × String))
    (videoId captions : String) : List (String × String) :=
  let cache' :=
    if maxSize ≤ cache.length then cache.drop 1 else cache
  jsMapSet cache' videoId captions

/-- `getFromCache(videoId)` of the youtube/ watcher: the stored text when
present. -/
def getFromCache (cache : List (String × String)) (videoId : String) :
    Option String :=
  (cache.find? (fun p => p.1 = videoId)).map Prod.snd

/-- Fold a list of `(videoId, captions)` pairs through `addToCache`,
starting from a given cache. -/
def insertAll (maxSize : Nat) (kvs : List (String × String))
    (cache : List (String × String)) : List (String × String) :=
  kvs.foldl (fun c kv => addToCache maxSize c kv.1 kv.2) cache

example : insertAll 2 [("a", "1"), ("b", "2"), ("c", "3")] [] =
    [("b", "2"), ("c", "3")] := by decide

example : addToCache 3 [("a", "1"), ("b", "2"), ("c", "3")] "b" "9" =
    [("b", "9"), ("c", "3")] := by decide

/-! ## Duration computation

Two implementations exist in the source: `GeminiClient.calculateEventDurations`
(LangChain client) and `VideoEvent.calculateDurations` (gemini-client).  Both
sort by timestamp and set every non-last event's duration to the distance to
the next event; they differ on the last event when no total video duration is
supplied. -/

/-- The duration-assignment loop of `GeminiClient.calculateEventDurations`
on an already sorted list: each non-last event gets the distance to its
successor; the last gets `videoDuration - timestamp` when a duration is
supplied, else `0`. -/
def assignDurationsLC : List VideoEvent → Option Int → List VideoEvent
  | [], _ => []
  | [e], some d => [{ e with duration := some (d - e.timestamp) }]
  | [e], none => [{ e with duration := some 0 }]
  | e :: f :: rest, vd =>
    { e with duration := some (f.timestamp - e.timestamp) } ::
      assignDurationsLC (f :: rest) vd

/-- `GeminiClient.calculateEventDurations(events, videoDuration)`: early
return on an empty list, otherwise sort and assign durations. -/
def calculateEventDurations (events : List VideoEvent)
    (videoDuration : Option Int) : List VideoEvent :=
  if events.isEmpty then events
  else assignDurationsLC (sortByTimestamp events) videoDuration

/-- The duration-assignment loop of `VideoEvent.calculateDurations` on an
already sorted list: like `assignDurationsLC`, except that when no video
duration is supplied the last event is left entirely unchanged (its
duration keeps its previous value, `undefined` for freshly parsed
events). -/
def assignDurationsVE : List VideoEvent → Option Int → List VideoEvent
  | [], _ => []
  | [e], some d => [{ e with duration := some (d - e.timestamp) }]
  | [e], none => [e]
  | e :: f :: rest, vd =>
    { e with duration := some (f.timestamp - e.timestamp) } ::
      assignDurationsVE (f :: rest) vd

/-- `VideoEvent.calculateDurations(events, videoDuration)`: sort, then
assign durations. -/
def VideoEvent.calculateDurations (events : List VideoEvent)
    (videoDuration : Option Int) : List VideoEvent :=
  assignDurationsVE (sortByTimestamp events) videoDuration

/-! ## Active-event resolution -/

/-- Modelled from the spec: the Active-Event Resolver is not among the
provided source files (the UI module imports a `currentActiveEvent` signal
from the watcher, but no provided watcher version defines it).  Per spec
§4.4, `resolveActiveEvent(position)` returns the event whose timestamp is
the greatest timestamp ≤ position, with ties between equal timestamps
resolved in favour of the later array position, and absent when the
position is absent or no event has started.  `resolveStep` is one step of
the scan: a candidate that has started (timestamp ≤ position) replaces the
best so far when its timestamp is at least as large. -/
def resolveStep (p : Int) (best : Option VideoEvent) (e : VideoEvent) :
    Option VideoEvent :=
  if e.timestamp ≤ p then
    match best with
    | none => some e
    | some b => if b.timestamp ≤ e.timestamp then some e else some b
  else best

/-- Modelled from the spec: `resolveActiveEvent(position)` scans the
timeline with `resolveStep`, keeping the latest-started candidate, and is
absent for an absent position. -/
def resolveActiveEvent (events : List VideoEvent) (position : Option Int) :
    Option VideoEvent :=
  match position with
  | none => none
  | some p => events.foldl (resolveStep p) none

/-- The four-event boundary fixture used by the spec and the repository's
playhead test: timestamps `[0, 30, 60, 90]`, durations `[30, 30, 30, 0]`. -/
def demoEvents : List VideoEvent :=
  [⟨"Introduction", "The video begins with an introduction", 0, some 30⟩,
   ⟨"First point", "The speaker makes their first point", 30, some 30⟩,
   ⟨"Second point", "The speaker makes their second point", 60, some 30⟩,
   ⟨"Conclusion", "The video concludes with a summary", 90, some 0⟩]

example : (resolveActiveEvent demoEvents (some 29)).map VideoEvent.timestamp =
    some 0 := by decide

example : (resolveActiveEvent demoEvents (some 30)).map VideoEvent.timestamp =
    some 30 := by decide

example : (resolveActiveEvent demoEvents (some 95)).map VideoEvent.timestamp =
    some 90 := by decide

example : resolveActiveEvent demoEvents (some (-1)) = none := by decide

example : (VideoEvent.calculateDurations
    [⟨"Only", "d", 10, none⟩] none).map VideoEvent.duration = [none] := by decide

example : (calculateEventDurations
    [⟨"Only", "d", 10, none⟩] none).map VideoEvent.duration = [some 0] := by decide

example : (VideoEvent.calculateDurations
    [⟨"Only", "d", 10, none⟩] (some 60)).map VideoEvent.duration =
    [some 50] := by decide

/-! ## URL → video id extraction (`extractVideoId`, url-utils.ts)

The platform's `new URL(...)` constructor is the external parser; its
outcome is modelled as `Option URLParts` (`none` when the constructor
throws, which the source catches and turns into `null`). -/

/-- The fields of a parsed URL that `extractVideoId` consults:
`hostname`, `pathname`, and `searchParams.get('v')`. -/
structure URLParts where
  hostname : String
  pathname : String
  searchParamV : Option String
deriving DecidableEq, Repr

/-- Substring test on character lists, mirroring JavaScript
`String.prototype.includes`. -/
def listContainsSub (pat : List Char) : List Char → Bool
  | [] => pat.isEmpty
  | c :: t => pat.isPrefixOf (c :: t) || listContainsSub pat t

/-- `parsedUrl.hostname.includes('youtube.com')`. -/
def hostIncludesYoutube (u : URLParts) : Bool :=
  listContainsSub "youtube.com".toList u.hostname.toList

/-- `extractVideoId(url)`: on a `youtube.com` hostname with pathname
`/watch`, return `searchParams.get('v')`; on hostname `youtu.be`, return
the pathname without its leading slash (`path || null`); otherwise (or
when URL parsing failed) return `null`. -/
def extractVideoId (parsed : Option URLParts) : Option String :=
  match parsed with
  | none => none
  | some u =>
    if hostIncludesYoutube u && u.pathname == "/watch" then
      u.searchParamV
    else if u.hostname == "youtu.be" then
      let path := u.pathname.drop 1
      if path == "" then none else some path
    else
      none

example : extractVideoId (some ⟨"www.youtube.com", "/watch", some "dQw4w9WgXcQ"⟩) =
    some "dQw4w9WgXcQ" := by decide

example : extractVideoId (some ⟨"youtu.be", "/dQw4w9WgXcQ", none⟩) =
    some "dQw4w9WgXcQ" := by decide

example : extractVideoId (some ⟨"youtu.be", "/", none⟩) = none := by decide

example : extractVideoId (some ⟨"example.com", "/watch", some "x"⟩) = none := by
  decide

example : extractVideoId none = none := by decide

/-! ## Gemini response validation (`GeminiClient.getVideoAnalysis`,
gemini-client.ts) -/

/-- A raw event object of the provider's JSON payload. -/
structure RawVideoEvent where
  name : String
  description : String
  timestamp : Int
deriving DecidableEq, Repr

/-- A parsed provider response; each field is `none` when missing or
`null` in the JSON. -/
structure RawAnalysis where
  events : Option (List RawVideoEvent)
  summary : Option String
  keyPoints : Option (List String)

/-- JavaScript falsiness of a string field: missing, `null`, or `''`. -/
def jsFalsyString : Option String → Bool
  | none => true
  | some s => s == ""

/-- JavaScript falsiness of an array field: only missing or `null` (an
array value is always truthy, even when empty). -/
def jsFalsyArray {α : Type} (x : Option (List α)) : Bool := x.isNone

/-- The validation disjunction of `getVideoAnalysis`:
`!structuredOutput || !structuredOutput.events || !Array.isArray(...) ||
!structuredOutput.summary || !structuredOutput.keyPoints`.  In this typed
model every present `events` value is an array, so the `Array.isArray`
test is subsumed by presence. -/
def analysisResponseInvalid (resp : Option RawAnalysis) : Bool :=
  match resp with
  | none => true
  | some r =>
    jsFalsyArray r.events || jsFalsyString r.summary || jsFalsyArray r.keyPoints

/-- Comparator relation on raw events for the
`events.sort((a, b) => a.timestamp - b.timestamp)` step. -/
def rawTsLE (a b : RawVideoEvent) : Prop := a.timestamp ≤ b.timestamp

instance : DecidableRel rawTsLE := fun a b =>
  inferInstanceAs (Decidable (a.timestamp ≤ b.timestamp))

/-- `GeminiClient.getVideoAnalysis` after the response JSON has been
parsed: reject invalid responses with the `Invalid response format` error,
otherwise sort the events ascending by timestamp and return the
response. -/
def getVideoAnalysis (resp : Option RawAnalysis) :
    Except String (List RawVideoEvent × String × List String) :=
  if analysisResponseInvalid resp then
    Except.error "Invalid response format from Gemini API"
  else
    let r := (resp.getD ⟨none, none, none⟩)
    Except.ok ((r.events.getD []).insertionSort rawTsLE, r.summary.getD "",
      r.keyPoints.getD [])

example : getVideoAnalysis (some ⟨some [⟨"a", "b", 3⟩], some "", some ["k"]⟩) =
    Except.error "Invalid response format from Gemini API" := by rfl

example : getVideoAnalysis (some ⟨some [⟨"a", "b", 3⟩], some "s", some []⟩) =
    Except.ok ([⟨"a", "b", 3⟩], "s", []) := by rfl

/-! ## Playhead tracker (youtube/youtube-watcher.ts) -/

/-- The tracker state: current video id, published playhead position, and
whether the playhead polling interval is active. -/
structure PlayheadState where
  videoId : Option String
  playhead : Option Int
  pollingActive : Bool
deriving DecidableEq, Repr

/-- `stopPlayheadPolling()`: early return when not polling; otherwise
clear the interval and reset the published position to `null`. -/
def stopPlayheadPolling (s : PlayheadState) : PlayheadState :=
  if s.pollingActive then { s with pollingActive := false, playhead := none }
  else s

/-- `readPlayheadPosition()`: `null` when no current video id; otherwise
the media element's clock (`mediaTime`, `none` when
`video.html5-main-video` cannot be located). -/
def readPlayheadPosition (s : PlayheadState) (mediaTime : Option Int) :
    Option Int :=
  match s.videoId with
  | none => none
  | some _ => mediaTime

/-- `updatePlayheadPosition()`: on a `null` read, stop polling only when
there is also no current video id, and return without touching the
published position; on a successful read, publish it. -/
def updatePlayheadPosition (s : PlayheadState) (mediaTime : Option Int) :
    PlayheadState :=
  match readPlayheadPosition s mediaTime with
  | none =>
    match s.videoId with
    | none => stopPlayheadPolling s
    | some _ => s
  | some t => { s with playhead := some t }

example : updatePlayheadPosition ⟨some "abc", some 42, true⟩ none =
    ⟨some "abc", some 42, true⟩ := by decide

example : updatePlayheadPosition ⟨none, some 42, true⟩ none =
    ⟨none, none, false⟩ := by decide

/-! ## Caption extraction and navigation (youtube-watcher.ts)

The single-threaded event loop is modelled as a trace of atomic steps
folded over the watcher state.  A navigation step runs the synchronous
part of `processCurrentUrl` / `extractCaptionsForVideo` (id update and
cache lookup); the asynchronous remainder of an in-flight
`extractCaptions` call is a separate `extractionCompletes` step that may
be interleaved arbitrarily with later navigations. -/

/-- The outcome of an awaited `extractCaptions(videoId)` call: the
resolved `{ transcript, ... }` or a rejection. -/
inductive ExtractionOutcome where
  | success (transcript : String)
  | failure
deriving DecidableEq, Repr

/-- The watcher's published signals plus the captions cache. -/
structure CaptionState where
  currentVideoId : Option String
  currentCaptions : Option String
  captionsCache : List (String × String)
deriving DecidableEq, Repr

/-- One atomic step of the event loop. -/
inductive WatcherEvent where
  | navigate (videoId : Option String)
  | extractionCompletes (videoId : String) (outcome : ExtractionOutcome)
deriving DecidableEq, Repr

/-- The completion path of `extractCaptionsForVideo` in
youtube/youtube-watcher.ts (lines 138–170): on resolution the transcript
is published and cached with no check that `videoId` is still current; on
rejection the catch sets captions to `null` and leaves the cache
untouched. -/
def completeExtractionNew (maxSize : Nat) (s : CaptionState)
    (videoId : String) (outcome : ExtractionOutcome) : CaptionState :=
  match outcome with
  | .success t =>
    { s with currentCaptions := some t,
             captionsCache := addToCache maxSize s.captionsCache videoId t }
  | .failure => { s with currentCaptions := none }

/-- The completion path of `extractCaptionsForVideo` in the root
youtube-watcher.ts (lines 132–169): like the youtube/ version, except
that a resolved result with a falsy (empty) transcript takes the
`Failed to extract captions` branch — captions set to `null`, cache
untouched.  Again no check that `videoId` is still current. -/
def completeExtractionRoot (maxSize : Nat) (s : CaptionState)
    (videoId : String) (outcome : ExtractionOutcome) : CaptionState :=
  match outcome with
  | .success t =>
    if t == "" then { s with currentCaptions := none }
    else
      { s with currentCaptions := some t,
               captionsCache := addToCache maxSize s.captionsCache videoId t }
  | .failure => { s with currentCaptions := none }

/-- The synchronous part of a navigation: `processCurrentUrl` sets (or
clears) the video id, and `extractCaptionsForVideo` publishes cached
captions on a truthy cache hit (`if (cachedCaptions)`); on a miss the
extraction is left in flight. -/
def applyNavigation (s : CaptionState) (videoId : Option String) :
    CaptionState :=
  match videoId with
  | none => { s with currentVideoId := none, currentCaptions := none }
  | some v =>
    match getFromCache s.captionsCache v with
    | some t =>
      if t == "" then { s with currentVideoId := some v }
      else { s with currentVideoId := some v, currentCaptions := some t }
    | none => { s with currentVideoId := some v }

/-- One step of the youtube/ watcher's event loop. -/
def watcherStep (maxSize : Nat) (s : CaptionState) : WatcherEvent → CaptionState
  | .navigate v => applyNavigation s v
  | .extractionCompletes v outcome => completeExtractionNew maxSize s v outcome

/-- Run a trace of steps from a starting state. -/
def runWatcher (maxSize : Nat) (s : CaptionState)
    (trace : List WatcherEvent) : CaptionState :=
  trace.foldl (watcherStep maxSize) s

/-- The navigation race of spec §5/§8: extraction for video `A` starts,
the user navigates to `B`, `B`'s extraction resolves first, and `A`'s
stale extraction resolves last. -/
def raceTrace : List WatcherEvent :=
  [.navigate (some "A"),
   .navigate (some "B"),
   .extractionCompletes "B" (.success "captions-B"),
   .extractionCompletes "A" (.success "captions-A")]

example : (runWatcher 10 ⟨none, none, []⟩ raceTrace).currentCaptions =
    some "captions-A" := by decide

example : (runWatcher 10 ⟨none, none, []⟩ raceTrace).currentVideoId =
    some "B" := by decide

/-! ## Theorems -/

/-- C3.  The claim says a completing extraction checks that the video id
it was extracting for still matches the current one before publishing.
No version of `extractCaptionsForVideo` performs such a check: running
the navigation race (extract for `A`; navigate to `B`; `B` resolves
first; `A` resolves last) leaves `currentCaptions` holding `A`'s
transcript even though the current video is `B`, so the stale extraction
does overwrite the published captions. -/
theorem staleExtraction_overwrites_captions :
    (runWatcher 10 ⟨none, none, []⟩ raceTrace).currentCaptions =
      some "captions-A" ∧
    (runWatcher 10 ⟨none, none, []⟩ raceTrace).currentVideoId = some "B" ∧
    (some "captions-A" : Option String) ≠ some "captions-B" := by
  refine ⟨by decide, by decide, by decide⟩

/-- C7 counterexample.  With a current video id present, a published
position of 42 and the media element missing, `updatePlayheadPosition`
leaves the published position at 42 instead of publishing absent. -/
theorem updatePlayhead_missingElement_counterexample :
    (updatePlayheadPosition ⟨some "abc", some 42, true⟩ none).playhead ≠
      none ∧
    (updatePlayheadPosition ⟨some "abc", some 42, true⟩ none).playhead =
      some 42 := by
  refine ⟨by decide, by decide⟩

/-- C7 amended.  When the position cannot be read: with no current video
id the tracker stops polling (which clears the published position); with
a current video id present it returns with the state — including the
previously published position — unchanged, and keeps polling. -/
theorem updatePlayhead_missingElement_behavior :
    ∀ s : PlayheadState,
      (s.videoId = none → updatePlayheadPosition s none = stopPlayheadPolling s) ∧
      (s.videoId = none → s.pollingActive = true →
        (updatePlayheadPosition s none).playhead = none ∧
        (updatePlayheadPosition s none).pollingActive = false) ∧
      (∀ v, s.videoId = some v → updatePlayheadPosition s none = s) := by
  intro s
  refine ⟨fun h => ?_, fun h ha => ?_, fun v h => ?_⟩ <;>
    simp [updatePlayheadPosition, readPlayheadPosition, stopPlayheadPolling, h]
  · exact ⟨by simp [ha], by simp [ha]⟩

/-- C7 witness: the amended theorem applied at a concrete state with no
video id and active polling. -/
theorem updatePlayhead_missingElement_behavior_witness :
    (updatePlayheadPosition ⟨none, some 5, true⟩ none).playhead = none ∧
    (updatePlayheadPosition ⟨none, some 5, true⟩ none).pollingActive = false :=
  (updatePlayhead_missingElement_behavior ⟨none, some 5, true⟩).2.1 rfl rfl

/-- C5 counterexample.  In the youtube/ watcher, an extraction that
resolves with an empty transcript (captions unavailable, but the
extractor did not reject) is cached and published: a cache entry is
created and the published caption state is the empty string, not
absent. -/
theorem extractionEmptyTranscript_counterexample :
    (completeExtractionNew 10 ⟨some "A", none, []⟩ "A"
        (.success "")).captionsCache = [("A", "")] ∧
    (completeExtractionNew 10 ⟨some "A", none, []⟩ "A"
        (.success "")).currentCaptions = some "" ∧
    (some "" : Option String) ≠ none ∧
    ([("A", "")] : List (String × String)) ≠ [] := by
  refine ⟨by decide, by decide, by decide, by decide⟩

/-- C5 amended.  When the extractor throws/rejects, both watcher versions
recover locally: the cache is unchanged and the published captions become
absent.  The root watcher additionally treats a resolved-but-empty
transcript as failure (no cache entry, captions absent); the youtube/
watcher caches and publishes an empty transcript (see the
counterexample). -/
theorem extractionFailure_recovery :
    ∀ (maxSize : Nat) (s : CaptionState) (v : String),
      ((completeExtractionNew maxSize s v .failure).captionsCache =
          s.captionsCache ∧
        (completeExtractionNew maxSize s v .failure).currentCaptions = none) ∧
      ((completeExtractionRoot maxSize s v .failure).captionsCache =
          s.captionsCache ∧
        (completeExtractionRoot maxSize s v .failure).currentCaptions = none) ∧
      ((completeExtractionRoot maxSize s v (.success "")).captionsCache =
          s.captionsCache ∧
        (completeExtractionRoot maxSize s v (.success "")).currentCaptions =
          none) := by
  intro maxSize s v
  refine ⟨⟨rfl, rfl⟩, ⟨rfl, rfl⟩, ⟨?_, ?_⟩⟩ <;> simp [completeExtractionRoot]

/-- C9.  `getVideoAnalysis` validates with JavaScript falsiness: a
response whose `summary` is the empty string is rejected with the
`Invalid response format` error even though every required field is
present, exactly as a response with `null` events is. -/
theorem getVideoAnalysis_falsy_rejection :
    ∀ (evs : List RawVideoEvent) (kps : List String) (summ : Option String)
      (kps2 : Option (List String)),
      getVideoAnalysis (some ⟨some evs, some "", some kps⟩) =
        Except.error "Invalid response format from Gemini API" ∧
      getVideoAnalysis (some ⟨none, summ, kps2⟩) =
        Except.error "Invalid response format from Gemini API" := by
  intro evs kps summ kps2
  constructor <;>
    simp [getVideoAnalysis, analysisResponseInvalid, jsFalsyArray, jsFalsyString]

/-- C2.  The claim says the last event's duration becomes 0 when no total
video duration is supplied.  `GeminiClient.calculateEventDurations` does
set 0, but `VideoEvent.calculateDurations` leaves the last event's
duration unset in that case — contradicting the repository's own
video-event test, which expects 0.  Both implementations are evaluated at
the single-event failing input. -/
theorem calculateDurations_lastEvent_divergence :
    (VideoEvent.calculateDurations [⟨"Only", "d", 10, none⟩] none).map
        VideoEvent.duration = [none] ∧
    (calculateEventDurations [⟨"Only", "d", 10, none⟩] none).map
        VideoEvent.duration = [some 0] ∧
    (none : Option Int) ≠ some 0 := by
  refine ⟨by decide, by decide, by decide⟩

/-- C8.  `extractVideoId` never throws (it is total), returns the `v`
query parameter on a youtube.com `/watch` URL, the path remainder on a
`youtu.be` URL with a nonempty remainder, and absent in every other case,
including unparseable URLs. -/
theorem extractVideoId_shapes :
    (extractVideoId none = none) ∧
    (∀ u : URLParts, (hostIncludesYoutube u && u.pathname == "/watch") = true →
      extractVideoId (some u) = u.searchParamV) ∧
    (∀ u : URLParts, (hostIncludesYoutube u && u.pathname == "/watch") = false →
      u.hostname = "youtu.be" → u.pathname.drop 1 ≠ "" →
      extractVideoId (some u) = some (u.pathname.drop 1)) ∧
    (∀ u : URLParts, (hostIncludesYoutube u && u.pathname == "/watch") = false →
      u.hostname = "youtu.be" → u.pathname.drop 1 = "" →
      extractVideoId (some u) = none) ∧
    (∀ u : URLParts, (hostIncludesYoutube u && u.pathname == "/watch") = false →
      u.hostname ≠ "youtu.be" → extractVideoId (some u) = none) := by
  refine ⟨rfl, fun u h => ?_, fun u h h2 h3 => ?_, fun u h h2 h3 => ?_,
    fun u h h2 => ?_⟩
  · simp [extractVideoId, h]
  · simp [extractVideoId, h, h2, h3]
  · simp [extractVideoId, h, h2, h3]
  · simp [extractVideoId, h, h2]

/-- C8 witness: the theorem's watch-URL case applied at a concrete parsed
URL. -/
theorem extractVideoId_shapes_witness :
    extractVideoId (some ⟨"www.youtube.com", "/watch", some "dQw4w9WgXcQ"⟩) =
      some "dQw4w9WgXcQ" :=
  extractVideoId_shapes.2.1 ⟨"www.youtube.com", "/watch", some "dQw4w9WgXcQ"⟩
    (by decide)

/-- `Map.set` on a key that is present rewrites that entry in place: the
key sequence is unchanged. -/
theorem jsMapSet_present_keys (cache : List (String × String)) (k v : String)
    (h : k ∈ cache.map Prod.fst) :
    (jsMapSet cache k v).map Prod.fst = cache.map Prod.fst := by
  have hany : cache.any (fun p => decide (p.1 = k)) = true := by
    rcases List.mem_map.mp h with ⟨p, hp, hpk⟩
    exact List.any_eq_true.mpr ⟨p, hp, by simp [hpk]⟩
  simp only [jsMapSet, hany, if_true]
  rw [List.map_map]
  apply List.map_congr_left
  intro p _
  by_cases hpk : p.1 = k <;> simp [hpk]

/-- `Map.set` on a key that is absent appends the new entry. -/
theorem jsMapSet_fresh (cache : List (String × String)) (k v : String)
    (h : k ∉ cache.map Prod.fst) :
    jsMapSet cache k v = cache ++ [(k, v)] := by
  have hany : cache.any (fun p => decide (p.1 = k)) = false := by
    rw [List.any_eq_false]
    intro p hp
    simp only [decide_eq_true_eq]
    exact fun hpk => h (List.mem_map.mpr ⟨p, hp, hpk⟩)
  simp [jsMapSet, hany]

/-- C10.  Calling `addToCache` with an id already cached while the cache
is at capacity still evicts the oldest entry before the `Map.set`
overwrite: when the inserted id is not the oldest, the oldest entry's
captions are lost and the cache ends one entry below capacity. -/
theorem addToCache_existingKey_at_capacity :
    ∀ (cap : Nat) (k₀ v₀ : String) (rest : List (String × String))
      (k v : String),
      (((k₀, v₀) :: rest).map Prod.fst).Nodup →
      ((k₀, v₀) :: rest).length = cap →
      k ≠ k₀ → k ∈ rest.map Prod.fst →
      addToCache cap ((k₀, v₀) :: rest) k v = jsMapSet rest k v ∧
      (addToCache cap ((k₀, v₀) :: rest) k v).length = cap - 1 ∧
      k₀ ∉ (addToCache cap ((k₀, v₀) :: rest) k v).map Prod.fst ∧
      (addToCache cap ((k₀, v₀) :: rest) k v).map Prod.fst =
        rest.map Prod.fst := by
  intro cap k₀ v₀ rest k v hnodup hlen hne hmem
  have hlen' : rest.length + 1 = cap := by simpa using hlen
  have hcap' : cap ≤ rest.length + 1 := le_of_eq hlen'.symm
  have heq : addToCache cap ((k₀, v₀) :: rest) k v = jsMapSet rest k v := by
    simp [addToCache, hcap']
  have hkeys : (jsMapSet rest k v).map Prod.fst = rest.map Prod.fst :=
    jsMapSet_present_keys rest k v hmem
  have hpairs : ∀ x, (k₀, x) ∉ rest := by
    have h' : (∀ x, (k₀, x) ∉ rest) ∧ (rest.map Prod.fst).Nodup := by
      simpa using hnodup
    exact h'.1
  have hk₀ : k₀ ∉ rest.map Prod.fst := by
    intro hmem0
    rcases List.mem_map.mp hmem0 with ⟨⟨a, b⟩, hp, hpk⟩
    simp only at hpk
    subst hpk
    exact hpairs b hp
  refine ⟨heq, ?_, ?_, ?_⟩
  · rw [heq]
    have hlenkeys : (jsMapSet rest k v).length = rest.length := by
      have := congrArg List.length hkeys
      simpa using this
    rw [hlenkeys]
    omega
  · rw [heq, hkeys]
    exact hk₀
  · rw [heq, hkeys]

/-- C10 witness: capacity 3, cache `[a, b, c]`, re-inserting `b` evicts
`a` and leaves two entries. -/
theorem addToCache_existingKey_at_capacity_witness :
    addToCache 3 [("a", "1"), ("b", "2"), ("c", "3")] "b" "9" =
      jsMapSet [("b", "2"), ("c", "3")] "b" "9" ∧
    (addToCache 3 [("a", "1"), ("b", "2"), ("c", "3")] "b" "9").length = 3 - 1 ∧
    "a" ∉ (addToCache 3 [("a", "1"), ("b", "2"), ("c", "3")] "b" "9").map
      Prod.fst ∧
    (addToCache 3 [("a", "1"), ("b", "2"), ("c", "3")] "b" "9").map Prod.fst =
      [("b", "2"), ("c", "3")].map Prod.fst :=
  addToCache_existingKey_at_capacity 3 "a" "1" [("b", "2"), ("c", "3")] "b" "9"
    (by decide) (by decide) (by decide) (by decide)

/-- Inserting fresh, pairwise-distinct keys while staying within capacity
never evicts: the cache grows by appending. -/
theorem insertAll_within_capacity :
    ∀ (kvs cache : List (String × String)) (cap : Nat),
      cache.length + kvs.length ≤ cap →
      (∀ k ∈ kvs.map Prod.fst, k ∉ cache.map Prod.fst) →
      (kvs.map Prod.fst).Nodup →
      insertAll cap kvs cache = cache ++ kvs := by
  intro kvs
  induction kvs with
  | nil => intro cache cap _ _ _; simp [insertAll]
  | cons kv rest ih =>
    intro cache cap hlen hfresh hnodup
    obtain ⟨k, v⟩ := kv
    simp only [List.map_cons, List.nodup_cons] at hnodup
    obtain ⟨hknotin, hndrest⟩ := hnodup
    have hnoevict : ¬ cap ≤ cache.length := by
      simp only [List.length_cons] at hlen
      omega
    have hkfresh : k ∉ cache.map Prod.fst := hfresh k (by simp)
    have hstep : addToCache cap cache k v = cache ++ [(k, v)] := by
      simp only [addToCache, if_neg hnoevict]
      exact jsMapSet_fresh cache k v hkfresh
    have hins : insertAll cap ((k, v) :: rest) cache =
        insertAll cap rest (cache ++ [(k, v)]) := by
      simp [insertAll, List.foldl_cons, hstep]
    rw [hins, ih (cache ++ [(k, v)]) cap ?_ ?_ ?_]
    · simp
    · simp only [List.length_append, List.length_singleton]
      simp only [List.length_cons] at hlen
      omega
    · intro k' hk'
      have hk'c : k' ∉ cache.map Prod.fst := hfresh k' (by simp [hk'])
      have hk'k : k' ≠ k := by
        intro h
        exact hknotin (h ▸ hk')
      simp [hk'c, hk'k]
    · exact hndrest

/-- C4.  With capacity `cap ≥ 1`: an insert performed on a cache at
capacity evicts the single oldest-inserted entry before setting the new
pair, and inserting `cap + 1` distinct video ids into an empty cache
leaves exactly `cap` entries — the first-inserted id evicted and all the
others retained. -/
theorem cacheCapacity_eviction :
    ∀ cap : Nat, 1 ≤ cap →
      (∀ (cache : List (String × String)) (k v : String),
        cache.length = cap →
        addToCache cap cache k v = jsMapSet (cache.drop 1) k v) ∧
      (∀ kvs : List (String × String), kvs.length = cap + 1 →
        (kvs.map Prod.fst).Nodup →
        insertAll cap kvs [] = kvs.drop 1 ∧
        (insertAll cap kvs []).length = cap) := by
  intro cap hcap
  constructor
  · intro cache k v hlen
    simp [addToCache, hlen.symm.le]
  · intro kvs hlen hnodup
    cases kvs with
    | nil => simp at hlen
    | cons kv0 rest =>
      obtain ⟨k0, v0⟩ := kv0
      rcases List.eq_nil_or_concat rest with hnil | ⟨ys, z, hys⟩
      · subst hnil
        simp only [List.length_cons, List.length_nil] at hlen
        omega
      rw [List.concat_eq_append] at hys
      subst hys
      have hylen : ys.length + 1 = cap := by
        simp only [List.length_cons, List.length_append, List.length_nil]
          at hlen
        omega
      have hkeys : (k0 :: (ys.map Prod.fst ++ [z.1])).Nodup := by
        simpa using hnodup
      have hk0 : k0 ∉ ys.map Prod.fst ++ [z.1] :=
        (List.nodup_cons.mp hkeys).1
      have hrest : (ys.map Prod.fst ++ [z.1]).Nodup :=
        (List.nodup_cons.mp hkeys).2
      have hzys : z.1 ∉ ys.map Prod.fst := by
        rcases List.nodup_append.mp hrest with ⟨_, _, hdisj⟩
        intro hmem
        exact hdisj hmem (by simp)
      have h0 : addToCache cap [] k0 v0 = [(k0, v0)] := by
        have : ¬ cap ≤ (0 : Nat) := by omega
        simp [addToCache, jsMapSet, this]
      have hfill : insertAll cap ys [(k0, v0)] = (k0, v0) :: ys := by
        have := insertAll_within_capacity ys [(k0, v0)] cap
          (by simp; omega)
          (by
            intro k' hk'
            have : k' ≠ k0 := by
              intro h
              exact hk0 (h ▸ List.mem_append_left _ hk')
            simp [this])
          (by
            rcases List.nodup_append.mp hrest with ⟨hys', _, _⟩
            exact hys')
        simpa using this
      have hz : addToCache cap ((k0, v0) :: ys) z.1 z.2 = ys ++ [z] := by
        have hlen2 : cap ≤ ((k0, v0) :: ys).length := by simp; omega
        simp only [addToCache, if_pos hlen2, List.drop_one, List.tail_cons]
        rw [jsMapSet_fresh ys z.1 z.2 hzys]
      have hsplit : insertAll cap ((k0, v0) :: (ys ++ [z])) [] =
          addToCache cap (insertAll cap ys (addToCache cap [] k0 v0)) z.1
            z.2 := by
        simp [insertAll, List.foldl_cons, List.foldl_append]
      rw [hsplit, h0, hfill, hz]
      constructor
      · simp
      · simp only [List.length_append, List.length_singleton]
        omega

/-- C4 witness: three distinct ids into an empty cache of capacity 2
leave the last two. -/
theorem cacheCapacity_eviction_witness :
    insertAll 2 [("a", "1"), ("b", "2"), ("c", "3")] [] =
      [("a", "1"), ("b", "2"), ("c", "3")].drop 1 ∧
    (insertAll 2 [("a", "1"), ("b", "2"), ("c", "3")] []).length = 2 :=
  (cacheCapacity_eviction 2 (by decide)).2 [("a", "1"), ("b", "2"), ("c", "3")]
    (by decide) (by decide)

/-- Duration assignment only touches the `duration` field: the core
fields of every event are preserved positionally. -/
theorem assignDurationsLC_map_core (l : List VideoEvent) (vd : Option Int) :
    (assignDurationsLC l vd).map VideoEvent.core = l.map VideoEvent.core := by
  induction l with
  | nil => cases vd <;> simp [assignDurationsLC]
  | cons e t ih =>
    cases t with
    | nil => cases vd <;> simp [assignDurationsLC, VideoEvent.core]
    | cons f r => simp [assignDurationsLC, VideoEvent.core, ih]

/-- Duration assignment of the `VideoEvent.calculateDurations` variant
also preserves every event's core fields positionally. -/
theorem assignDurationsVE_map_core (l : List VideoEvent) (vd : Option Int) :
    (assignDurationsVE l vd).map VideoEvent.core = l.map VideoEvent.core := by
  induction l with
  | nil => cases vd <;> simp [assignDurationsVE]
  | cons e t ih =>
    cases t with
    | nil => cases vd <;> simp [assignDurationsVE, VideoEvent.core]
    | cons f r => simp [assignDurationsVE, VideoEvent.core, ih]

/-- Equal core sequences have equal timestamp sequences. -/
theorem map_timestamp_eq_of_map_core_eq {l₁ l₂ : List VideoEvent}
    (h : l₁.map VideoEvent.core = l₂.map VideoEvent.core) :
    l₁.map VideoEvent.timestamp = l₂.map VideoEvent.timestamp := by
  have h2 := congrArg (List.map (fun q : String × String × Int => q.2.2)) h
  simpa [List.map_map, Function.comp, VideoEvent.core] using h2

/-- The sort step yields a timeline sorted by `tsLE`. -/
theorem sortByTimestamp_sorted (events : List VideoEvent) :
    List.Sorted tsLE (sortByTimestamp events) :=
  List.sorted_insertionSort tsLE events

/-- The sort step permutes the installed events. -/
theorem sortByTimestamp_perm (events : List VideoEvent) :
    (sortByTimestamp events).Perm events :=
  List.perm_insertionSort tsLE events

/-- The empty-list early return of `calculateEventDurations` coincides
with sorting and assigning durations unconditionally. -/
theorem calculateEventDurations_eq (events : List VideoEvent)
    (vd : Option Int) :
    calculateEventDurations events vd =
      assignDurationsLC (sortByTimestamp events) vd := by
  cases events with
  | nil => cases vd <;> rfl
  | cons e t => rfl

/-- C6.  Installing any event list — sorted or not — yields a timeline
whose timestamps are non-decreasing, and whose multiset of
(name, description, timestamp) triples is exactly that of the input: each
name and description stays paired with its original timestamp through the
sort, in both duration-computation implementations. -/
theorem installEvents_sorts_and_preserves_pairing :
    ∀ (events : List VideoEvent) (vd : Option Int),
      List.Sorted (· ≤ ·)
        ((calculateEventDurations events vd).map VideoEvent.timestamp) ∧
      ((calculateEventDurations events vd).map VideoEvent.core).Perm
        (events.map VideoEvent.core) ∧
      List.Sorted (· ≤ ·)
        ((VideoEvent.calculateDurations events vd).map VideoEvent.timestamp) ∧
      ((VideoEvent.calculateDurations events vd).map VideoEvent.core).Perm
        (events.map VideoEvent.core) := by
  intro events vd
  have hsort : List.Sorted tsLE (sortByTimestamp events) :=
    sortByTimestamp_sorted events
  have hts : List.Sorted (· ≤ ·)
      ((sortByTimestamp events).map VideoEvent.timestamp) :=
    List.pairwise_map.mpr (hsort.imp fun h => h)
  have hperm : ((sortByTimestamp events).map VideoEvent.core).Perm
      (events.map VideoEvent.core) :=
    (sortByTimestamp_perm events).map VideoEvent.core
  refine ⟨?_, ?_, ?_, ?_⟩
  · rw [calculateEventDurations_eq,
      map_timestamp_eq_of_map_core_eq (assignDurationsLC_map_core _ vd)]
    exact hts
  · rw [calculateEventDurations_eq, assignDurationsLC_map_core]
    exact hperm
  · rw [VideoEvent.calculateDurations,
      map_timestamp_eq_of_map_core_eq (assignDurationsVE_map_core _ vd)]
    exact hts
  · rw [VideoEvent.calculateDurations, assignDurationsVE_map_core]
    exact hperm

/-- One resolver step either ignores a not-yet-started candidate or
produces a started candidate no earlier than the candidate and the
accumulator. -/
theorem resolveStep_analysis (p : Int) (acc : Option VideoEvent)
    (x : VideoEvent) :
    (¬ x.timestamp ≤ p ∧ resolveStep p acc x = acc) ∨
    (x.timestamp ≤ p ∧ ∃ b', resolveStep p acc x = some b' ∧
      x.timestamp ≤ b'.timestamp ∧ (b' = x ∨ acc = some b') ∧
      (∀ a, acc = some a → a.timestamp ≤ b'.timestamp)) := by
  by_cases hx : x.timestamp ≤ p
  · right
    refine ⟨hx, ?_⟩
    cases acc with
    | none =>
      exact ⟨x, by simp [resolveStep, hx], le_refl _, Or.inl rfl, by simp⟩
    | some a =>
      by_cases hax : a.timestamp ≤ x.timestamp
      · refine ⟨x, by simp [resolveStep, hx, hax], le_refl _, Or.inl rfl, ?_⟩
        intro a0 ha0
        cases ha0
        exact hax
      · refine ⟨a, by simp [resolveStep, hx, hax],
          le_of_lt (not_le.mp hax), Or.inr rfl, ?_⟩
        intro a0 ha0
        cases ha0
        exact le_refl _
  · left
    refine ⟨hx, ?_⟩
    cases acc <;> simp [resolveStep, hx]

/-- Whenever the resolver scan produces a candidate, that candidate comes
from the scanned list or the accumulator, has started, and its timestamp
dominates every started event of the list and the accumulator. -/
theorem resolveFoldl_some (p : Int) :
    ∀ (l : List VideoEvent) (acc : Option VideoEvent),
      (∀ b, acc = some b → b.timestamp ≤ p) →
      ∀ c, l.foldl (resolveStep p) acc = some c →
        (c ∈ l ∨ acc = some c) ∧ c.timestamp ≤ p ∧
        (∀ f ∈ l, f.timestamp ≤ p → f.timestamp ≤ c.timestamp) ∧
        (∀ b, acc = some b → b.timestamp ≤ c.timestamp) := by
  intro l
  induction l with
  | nil =>
    intro acc hacc c hfold
    simp only [List.foldl_nil] at hfold
    refine ⟨Or.inr hfold, hacc c hfold, by simp, ?_⟩
    intro b hb
    rw [hb] at hfold
    cases hfold
    exact le_refl _
  | cons x xs ih =>
    intro acc hacc c hfold
    simp only [List.foldl_cons] at hfold
    rcases resolveStep_analysis p acc x with ⟨hx, hstep⟩ |
      ⟨hx, b', hstep, hxb, hbor, hble⟩
    · rw [hstep] at hfold
      obtain ⟨hmem, hcp, hmax, haccle⟩ := ih acc hacc c hfold
      refine ⟨?_, hcp, ?_, haccle⟩
      · rcases hmem with h | h
        · exact Or.inl (List.mem_cons_of_mem _ h)
        · exact Or.inr h
      · intro f hf hfp
        rcases List.mem_cons.mp hf with rfl | hf'
        · exact absurd hfp hx
        · exact hmax f hf' hfp
    · rw [hstep] at hfold
      have hacc' : ∀ b, (some b' : Option VideoEvent) = some b →
          b.timestamp ≤ p := by
        intro b hb
        cases hb
        rcases hbor with rfl | hbacc
        · exact hx
        · exact hacc _ hbacc
      obtain ⟨hmem, hcp, hmax, haccle'⟩ := ih (some b') hacc' c hfold
      have hb'c : b'.timestamp ≤ c.timestamp := haccle' b' rfl
      refine ⟨?_, hcp, ?_, ?_⟩
      · rcases hmem with h | h
        · exact Or.inl (List.mem_cons_of_mem _ h)
        · cases h
          rcases hbor with rfl | hbacc
          · exact Or.inl (List.mem_cons_self _ _)
          · exact Or.inr hbacc
      · intro f hf hfp
        rcases List.mem_cons.mp hf with rfl | hf'
        · exact le_trans hxb hb'c
        · exact hmax f hf' hfp
      · intro b hb
        exact le_trans (hble b hb) hb'c

/-- A resolver step yields no candidate exactly when it had none and the
scanned event has not started. -/
theorem resolveStep_eq_none (p : Int) (acc : Option VideoEvent)
    (x : VideoEvent) :
    resolveStep p acc x = none ↔ acc = none ∧ ¬ x.timestamp ≤ p := by
  by_cases hx : x.timestamp ≤ p <;> cases acc <;> simp [resolveStep, hx]
  split <;> simp

/-- The resolver scan yields no candidate exactly when the accumulator is
empty and no scanned event has started. -/
theorem resolveFoldl_none (p : Int) :
    ∀ (l : List VideoEvent) (acc : Option VideoEvent),
      l.foldl (resolveStep p) acc = none ↔
        acc = none ∧ ∀ f ∈ l, ¬ f.timestamp ≤ p := by
  intro l
  induction l with
  | nil => intro acc; simp
  | cons x xs ih =>
    intro acc
    rw [List.foldl_cons, ih (resolveStep p acc x), resolveStep_eq_none]
    simp only [List.forall_mem_cons]
    tauto

/-- C1.  `resolveActiveEvent` returns the latest-started event: when it
returns an event, that event is in the timeline, has started, and its
timestamp dominates every started event; it returns absent exactly when
the position is absent or every event's timestamp exceeds the position
(which covers the empty timeline); and on the `[0, 30, 60, 90]` fixture,
positions 29, 30 and 95 resolve to the events at 0, 30 and 90. -/
theorem resolveActiveEvent_spec :
    (∀ events : List VideoEvent, resolveActiveEvent events none = none) ∧
    (∀ (events : List VideoEvent) (p : Int) (e : VideoEvent),
      resolveActiveEvent events (some p) = some e →
        e ∈ events ∧ e.timestamp ≤ p ∧
        ∀ f ∈ events, f.timestamp ≤ p → f.timestamp ≤ e.timestamp) ∧
    (∀ (events : List VideoEvent) (p : Int),
      resolveActiveEvent events (some p) = none ↔
        ∀ f ∈ events, p < f.timestamp) ∧
    ((resolveActiveEvent demoEvents (some 29)).map VideoEvent.timestamp =
        some 0 ∧
      (resolveActiveEvent demoEvents (some 30)).map VideoEvent.timestamp =
        some 30 ∧
      (resolveActiveEvent demoEvents (some 95)).map VideoEvent.timestamp =
        some 90) := by
  refine ⟨fun events => rfl, ?_, ?_, by decide, by decide, by decide⟩
  · intro events p e hres
    obtain ⟨hmem, hep, hmax, _⟩ :=
      resolveFoldl_some p events none (by simp) e hres
    rcases hmem with h | h
    · exact ⟨h, hep, hmax⟩
    · simp at h
  · intro events p
    rw [show resolveActiveEvent events (some p) =
        events.foldl (resolveStep p) none from rfl, resolveFoldl_none]
    simp [not_le]

/-- C1 witness: the characterization applied at the fixture with position
30 — the resolved event is in the timeline and has started. -/
theorem resolveActiveEvent_spec_witness :
    (⟨"First point", "The speaker makes their first point", 30, some 30⟩ :
        VideoEvent) ∈ demoEvents ∧
    (⟨"First point", "The speaker makes their first point", 30, some 30⟩ :
        VideoEvent).timestamp ≤ 30 :=
  ⟨(resolveActiveEvent_spec.2.1 demoEvents 30 _ (by decide)).1,
   (resolveActiveEvent_spec.2.1 demoEvents 30 _ (by decide)).2.1⟩

end LLMOP
